import Mathlib

/-!
Shallow embedding of the DND-IT/action-config matrix-expansion engine
(src/internal/expander/expander.go and the change-detection filter merge in
src/cmd/action-config/main.go), together with theorems settling the frozen
claims about its specification.

Go values of type `any` (the result of JSON/YAML decoding) are modelled by
the inductive type `Value`; Go's `map[string]any` is modelled as an
association list `List (String × Value)`.  Go maps never contain a key
twice, so where a proof needs that fact it appears as a `Nodup` hypothesis
on the key list.  Go's `fmt.Sprintf("%v", x)` is modelled by `Value.toStr`;
indexing a missing key of a `map[string]any` yields `nil`, which `%v`
prints as `<nil>`.
-/

namespace ActionConfig

/-- Model of Go `any` values produced by decoding JSON/YAML config files.
Numbers are modelled as integers; no claim depends on float formatting. -/
inductive Value where
  | vstr  : String → Value
  | vint  : Int → Value
  | vbool : Bool → Value
  | vnull : Value
  | varr  : List Value → Value
  | vobj  : List (String × Value) → Value

/-- A Go `map[string]any` (both `MatrixEntry` and `RawConfig`), as an
association list. -/
abbrev Entry := List (String × Value)

/-- Go map indexing `m[k]` (first binding wins; Go maps are duplicate-free). -/
def lookup : Entry → String → Option Value
  | [], _ => none
  | p :: rest, k => if p.1 = k then some p.2 else lookup rest k

/-- Go map assignment `m[k] = v`: replace the binding if present, else add. -/
def setKey : Entry → String → Value → Entry
  | [], k, v => [(k, v)]
  | p :: rest, k, v => if p.1 = k then (k, v) :: rest else p :: setKey rest k v

/-- Go `for k, v := range m { e[k] = v }`: copy all bindings of `m` into `e`. -/
def mergeInto (e : Entry) (m : Entry) : Entry :=
  m.foldl (fun acc p => setKey acc p.1 p.2) e

/-- Go `delete(m, k)`. -/
def eraseKey (m : Entry) (k : String) : Entry :=
  m.filter (fun p => p.1 ≠ k)

/-- The key list of an entry. -/
def keysOf (e : Entry) : List String := e.map Prod.fst

/-- A Go map has no duplicate keys. -/
def WFEntry (e : Entry) : Prop := (keysOf e).Nodup

instance : DecidablePred WFEntry := fun e => by
  unfold WFEntry; infer_instance

/-- Space-separated concatenation, modelling the string joining performed
by Go's fmt when printing slices and maps (kept structurally recursive so
concrete values evaluate). -/
def joinSpace : List String → String
  | [] => ""
  | [s] => s
  | s :: rest => s ++ " " ++ joinSpace rest

/-- Go `fmt.Sprintf("%v", x)` on decoded values.  `nil` prints as `<nil>`;
slices print space-separated in brackets; maps print as `map[k:v ...]`
(Go's fmt sorts map keys; the claims never stringify composite values at a
point where that order is observable, so bindings are printed in order). -/
def Value.toStr : Value → String
  | .vstr s => s
  | .vint n => toString n
  | .vbool b => cond b "true" "false"
  | .vnull => "<nil>"
  | .varr xs => "[" ++ joinSpace (xs.attach.map fun x => Value.toStr x.1) ++ "]"
  | .vobj kvs => "map[" ++ joinSpace
      (kvs.attach.map fun p => p.1.1 ++ ":" ++ Value.toStr p.1.2) ++ "]"
decreasing_by
  · have := List.sizeOf_lt_of_mem x.2
    simp at this ⊢
    omega
  · have := List.sizeOf_lt_of_mem p.2
    rcases p with ⟨⟨a, b⟩, hp⟩
    simp at this ⊢
    omega

/-- The whitespace class of Go's `strings.TrimSpace` (restricted to the
ASCII whitespace characters; no claim involves other code points). -/
def isSpaceGo (c : Char) : Bool :=
  c = ' ' || c = '\t' || c = '\n' || c = '\x0b' || c = '\x0c' || c = '\r'

/-- Go `strings.TrimSpace`: drop whitespace from both ends. -/
def trimSpace (s : String) : String :=
  ⟨(((s.data.dropWhile isSpaceGo).reverse.dropWhile isSpaceGo).reverse)⟩

/-- Go `strings.HasPrefix`. -/
def hasPrefixGo (s pfx : String) : Bool :=
  pfx.data.isPrefixOf s.data

/-- `sortedKeys` from expander.go: the keys of a map, sorted. -/
def sortedKeys (m : Entry) : List String :=
  (m.map Prod.fst).mergeSort (fun a b => a ≤ b)

/-- `OptionsConfig` from expander.go: the parsed "global" block.  Go's
`SortBy []string` distinguishes nil (absent) from an empty slice, so it is
an `Option`; a nil `GlobalConfig` map merges like an empty one. -/
structure OptionsConfig where
  DimensionKey : String := "service"
  BaseDir : String := ""
  SortBy : Option (List String) := none
  GlobalConfig : Entry := []
  Exclude : List Entry := []
  Include : List Entry := []

/-- `Options` from expander.go: caller-supplied expansion options. -/
structure Options where
  FilterKey : String := ""
  FilterValues : List String := []
  EnvironmentFilter : List String := []
  InputExclude : List Entry := []
  InputInclude : List Entry := []

/-- `reservedKeys` from expander.go: top-level keys never treated as
dimensions. -/
def reservedKeys (k : String) : Bool :=
  k = "global" || k = "exclude" || k = "include"

/-- `globalReservedKeys` from expander.go: action-setting keys inside
"global". -/
def globalReservedKeys (k : String) : Bool :=
  k = "dimension_key" || k = "base_dir" || k = "sort_by"

/-- `toSlice` from expander.go: succeeds exactly on slices. -/
def toSlice : Value → Option (List Value)
  | .varr xs => some xs
  | _ => none

/-- `toMatrixEntries` from expander.go: a slice maps to its mapping items
(non-mapping items are silently discarded); anything else is an error. -/
def toMatrixEntries (v : Value) : Option (List Entry) :=
  match v with
  | .varr xs => some (xs.filterMap fun x =>
      match x with
      | .vobj m => some m
      | _ => none)
  | _ => none

/-- `dimension` from expander.go: a named list of values for the cartesian
product. -/
structure dimension where
  key : String
  values : List Value

/-- `ParseOptions` from expander.go: split a raw config into the parsed
options and the dimensions-only remainder. -/
def ParseOptions (raw : Entry) : OptionsConfig × Entry :=
  let dimensions : Entry := raw.filter (fun p => !reservedKeys p.1)
  let optsCfg : OptionsConfig := { DimensionKey := "service" }
  let optsCfg :=
    match lookup raw "exclude" with
    | some exc =>
      match toMatrixEntries exc with
      | some entries => { optsCfg with Exclude := entries }
      | none => optsCfg
    | none => optsCfg
  let optsCfg :=
    match lookup raw "include" with
    | some inc =>
      match toMatrixEntries inc with
      | some entries => { optsCfg with Include := entries }
      | none => optsCfg
    | none => optsCfg
  match lookup raw "global" with
  | some (.vobj globalMap) =>
    let optsCfg :=
      match lookup globalMap "dimension_key" with
      | some (.vstr mk) => if mk ≠ "" then { optsCfg with DimensionKey := mk } else optsCfg
      | _ => optsCfg
    let optsCfg :=
      match lookup globalMap "base_dir" with
      | some (.vstr bd) => { optsCfg with BaseDir := bd }
      | _ => optsCfg
    let optsCfg :=
      match lookup globalMap "sort_by" with
      | some sb =>
        match toSlice sb with
        | some arr =>
          { optsCfg with SortBy := some (arr.filterMap fun v =>
              match v with
              | Value.vstr s => some s
              | _ => none) }
        | none => optsCfg
      | none => optsCfg
    let globalConfig := globalMap.filter (fun p => !globalReservedKeys p.1)
    ({ optsCfg with GlobalConfig := globalConfig }, dimensions)
  | _ => (optsCfg, dimensions)

/-- `FilterChanged` from expander.go: the known values with at least one
matching changed file.  The Go loop appends a value and breaks at its first
matching file, which is exactly a filter by an existential over the files.
Whitespace trimming models Go's `strings.TrimSpace`. -/
def FilterChanged (changedFiles : List String) (baseDir : String) (knownValues : List String) : List String :=
  knownValues.filter fun val =>
    let pfx := if baseDir ≠ "" then baseDir ++ "/" ++ val ++ "/" else val ++ "/"
    changedFiles.any fun f => hasPrefixGo (trimSpace f) pfx

/-- `ExtractDimensionValues` from expander.go: array dimensions yield their
stringified values, map dimensions their sorted keys, anything else nil. -/
def ExtractDimensionValues (raw : Entry) (key : String) : List String :=
  match lookup raw key with
  | some (.varr arr) => arr.map Value.toStr
  | some (.vobj m) => sortedKeys m
  | _ => []

/-- `extractDimensions` from expander.go: classify top-level keys, in
sorted key order, into array and map dimensions. -/
def extractDimensions (raw : Entry) : List dimension :=
  (sortedKeys raw).filterMap fun k =>
    match lookup raw k with
    | some (.varr arr) => some ⟨k, arr⟩
    | some (.vobj m) => some ⟨k, (sortedKeys m).map Value.vstr⟩
    | _ => none

/-- `extractBaseConfig` from expander.go: the scalar (non-array, non-map)
top-level values. -/
def extractBaseConfig (raw : Entry) : Entry :=
  raw.filter fun p =>
    match p.2 with
    | .varr _ => false
    | .vobj _ => false
    | _ => true

/-- `cartesianProduct` from expander.go: fold over the dimensions, each
step extending every partial entry with every value of the dimension. -/
def cartesianProduct (dims : List dimension) : List Entry :=
  dims.foldl
    (fun result dim => result.flatMap fun entry =>
      dim.values.map fun val => setKey entry dim.key val)
    [[]]

/-- The per-value configuration used by step 4 of `mergeConfig`: the value
of `raw[dimKey]` must be a mapping, and its entry at the stringified combo
value must be a mapping. -/
def perValueConfig (raw combo : Entry) (dimKey : String) : Option Entry :=
  match lookup raw dimKey with
  | some (.vobj dimMap) =>
    match lookup dimMap (Value.toStr ((lookup combo dimKey).getD .vnull)) with
    | some (.vobj valConfig) => some valConfig
    | _ => none
  | _ => none

/-- The per-entry body of `mergeConfig` from expander.go: layer base
config, global config, the combo, then per-dimension-value configs in
sorted dimension-key order onto a fresh entry. -/
def mergeOne (baseConfig globalConfig : Entry) (raw : Entry) (combo : Entry) : Entry :=
  let entry := mergeInto [] baseConfig
  let entry := mergeInto entry globalConfig
  let entry := mergeInto entry combo
  (sortedKeys combo).foldl
    (fun e dimKey =>
      match perValueConfig raw combo dimKey with
      | some valConfig => mergeInto e valConfig
      | none => e)
    entry

/-- `mergeConfig` from expander.go. -/
def mergeConfig (entries : List Entry) (baseConfig globalConfig : Entry) (raw : Entry) : List Entry :=
  entries.map (mergeOne baseConfig globalConfig raw)

/-- `matchesPattern` from expander.go: every pattern binding must be
present in the entry with an equal stringified value. -/
def matchesPattern (entry pattern : Entry) : Bool :=
  pattern.all fun kv =>
    match lookup entry kv.1 with
    | some ev => Value.toStr ev = Value.toStr kv.2
    | none => false

/-- `applyExclude` from expander.go: keep the entries matched by no
pattern (the Go loop breaks at the first matching pattern, i.e. `any`). -/
def applyExclude (entries : List Entry) (patterns : List Entry) : List Entry :=
  entries.filter fun entry => !(patterns.any fun pattern => matchesPattern entry pattern)

/-- `applyInclude` from expander.go: append the include entries verbatim. -/
def applyInclude (entries : List Entry) (includes : List Entry) : List Entry :=
  entries ++ includes

/-- `applyFilter` from expander.go: keep entries whose value at `key` is
present and stringifies into the allowed set. -/
def applyFilter (entries : List Entry) (key : String) (allowed : List String) : List Entry :=
  entries.filter fun entry =>
    match lookup entry key with
    | some v => allowed.contains (Value.toStr v)
    | none => false

/-- The per-entry update of `addDirectoryField` from expander.go. -/
def addDirectoryOne (optsCfg : OptionsConfig) (entry : Entry) : Entry :=
  match lookup entry optsCfg.DimensionKey with
  | none => entry
  | some v =>
    let strVal := Value.toStr v
    if optsCfg.BaseDir ≠ "" then
      setKey entry "directory" (.vstr (optsCfg.BaseDir ++ "/" ++ strVal))
    else
      setKey entry "directory" (.vstr strVal)

/-- `addDirectoryField` from expander.go (Go mutates the entries in place;
the embedding returns the updated list). -/
def addDirectoryField (entries : List Entry) (optsCfg : OptionsConfig) : List Entry :=
  entries.map (addDirectoryOne optsCfg)

/-- The sort-key string of an entry at a key: `fmt.Sprintf("%v", e[key])`,
where a missing key yields `nil` and prints as `<nil>`. -/
def valStr (e : Entry) (k : String) : String :=
  Value.toStr ((lookup e k).getD .vnull)

/-- The comparison closure passed to `sort.SliceStable` in `sortEntries`:
lexicographic over the keys on stringified field values, a missing field
stringifying as nil does. -/
def entryLess (keys : List String) (a b : Entry) : Bool :=
  match keys with
  | [] => false
  | k :: rest =>
    if valStr a k ≠ valStr b k then valStr a k < valStr b k else entryLess rest a b

/-- The non-strict comparison induced by `entryLess`: `a` may come before
`b` in a stable sort by `entryLess` exactly when `¬ entryLess b a`. -/
def entryLE (keys : List String) (a b : Entry) : Bool :=
  !entryLess keys b a

/-- `sortEntries` from expander.go.  Go's `sort.SliceStable(entries, less)`
is the stable sort by the strict weak order `less`; `List.mergeSort` with
`le a b := !less b a` computes exactly that stable sort. -/
def sortEntries (entries : List Entry) (keys : List String) : List Entry :=
  entries.mergeSort fun a b => !entryLess keys b a

/-- The initial entries of `Expand` from expander.go: with no classified
dimensions, one fresh entry copying every top-level binding; otherwise the
merged cartesian product. -/
def baseEntries (raw : Entry) (optsCfg : OptionsConfig) : List Entry :=
  if (extractDimensions raw).length = 0 then
    [mergeInto [] raw]
  else
    mergeConfig (cartesianProduct (extractDimensions raw))
      (extractBaseConfig raw) optsCfg.GlobalConfig raw

/-- The config-level exclude block of `Expand` (guarded by `len > 0`). -/
def stageConfigExclude (optsCfg : OptionsConfig) (entries : List Entry) : List Entry :=
  if 0 < optsCfg.Exclude.length then applyExclude entries optsCfg.Exclude else entries

/-- The config-level include block of `Expand`. -/
def stageConfigInclude (optsCfg : OptionsConfig) (entries : List Entry) : List Entry :=
  if 0 < optsCfg.Include.length then applyInclude entries optsCfg.Include else entries

/-- The primary value-filter block of `Expand` (guarded by a nonempty
filter list and a nonempty filter key). -/
def stageValueFilter (opts : Options) (entries : List Entry) : List Entry :=
  if 0 < opts.FilterValues.length ∧ opts.FilterKey ≠ "" then
    applyFilter entries opts.FilterKey opts.FilterValues
  else entries

/-- The environment-filter block of `Expand`. -/
def stageEnvFilter (opts : Options) (entries : List Entry) : List Entry :=
  if 0 < opts.EnvironmentFilter.length then
    applyFilter entries "environment" opts.EnvironmentFilter
  else entries

/-- The caller-level exclude block of `Expand`. -/
def stageInputExclude (opts : Options) (entries : List Entry) : List Entry :=
  if 0 < opts.InputExclude.length then applyExclude entries opts.InputExclude else entries

/-- The caller-level include block of `Expand`. -/
def stageInputInclude (opts : Options) (entries : List Entry) : List Entry :=
  if 0 < opts.InputInclude.length then applyInclude entries opts.InputInclude else entries

/-- The body of `Expand` from expander.go, producing the entry list: the
pipeline of guarded stages, directory synthesis and the final sort with
the default sort key list. -/
def expandEntries (raw : Entry) (optsCfg : OptionsConfig) (opts : Options) : List Entry :=
  sortEntries
    (addDirectoryField
      (stageInputInclude opts
        (stageInputExclude opts
          (stageEnvFilter opts
            (stageValueFilter opts
              (stageConfigInclude optsCfg
                (stageConfigExclude optsCfg (baseEntries raw optsCfg)))))))
      optsCfg)
    (optsCfg.SortBy.getD ["environment"])

/-- `Expand` from expander.go.  Its Go signature is
`([]MatrixEntry, error)`; the body constructs no error and its single
return site is `return entries, nil`, so the embedding wraps the computed
entries in `Except.ok`. -/
def Expand (raw : Entry) (optsCfg : OptionsConfig) (opts : Options) : Except String (List Entry) :=
  Except.ok (expandEntries raw optsCfg opts)

/-- `isDimension` from expander.go, on the result of a map lookup (Go's
`raw[target]` is `nil` when the key is missing, and `nil` is neither a map
nor a slice). -/
def isDimension (v : Option Value) : Bool :=
  match v with
  | some (.vobj _) => true
  | some (.varr _) => true
  | _ => false

/-- The triple of states mutated by `ResolveTarget` (Go mutates `raw`,
`optsCfg` and `opts` through pointers; the embedding returns the new
values). -/
structure ResolveResult where
  raw : Entry
  optsCfg : OptionsConfig
  opts : Options

/-- `ResolveTarget` from expander.go: explicit dimension-key override,
then single-filter-value auto-detection. -/
def ResolveTarget (raw : Entry) (optsCfg : OptionsConfig) (opts : Options) (dimensionKeyOverride : String) : ResolveResult :=
  let configDimKey := optsCfg.DimensionKey
  if dimensionKeyOverride ≠ "" ∧ dimensionKeyOverride ≠ configDimKey ∧
      isDimension (lookup raw dimensionKeyOverride) then
    ⟨eraseKey raw configDimKey,
     { optsCfg with DimensionKey := dimensionKeyOverride },
     { opts with FilterKey := dimensionKeyOverride }⟩
  else
    match opts.FilterValues with
    | [target] =>
      if !isDimension (lookup raw target) then ⟨raw, optsCfg, opts⟩
      else if (ExtractDimensionValues raw configDimKey).contains target then ⟨raw, optsCfg, opts⟩
      else
        ⟨eraseKey raw configDimKey,
         { optsCfg with DimensionKey := target },
         { opts with FilterKey := target, FilterValues := [] }⟩
    | _ => ⟨raw, optsCfg, opts⟩

/-- The filter-merge step of `run` in cmd/action-config/main.go: when a
prior value filter is active, the changed values are intersected with it;
otherwise the changed values become the filter. -/
def mergeChangedFilter (changedValues priorFilter : List String) : List String :=
  if 0 < priorFilter.length then
    changedValues.filter fun s => priorFilter.contains s
  else changedValues

/-- The tail of `run` in cmd/action-config/main.go once change detection
has produced `changedValues`: an empty changed set short-circuits to an
empty matrix, otherwise the merged filter is installed and `Expand` runs. -/
def runMatrixAfterChanges (dims : Entry) (optsCfg : OptionsConfig) (opts : Options) (changedValues : List String) : List Entry :=
  if changedValues.length = 0 then []
  else
    let merged := mergeChangedFilter changedValues opts.FilterValues
    expandEntries dims optsCfg { opts with FilterValues := merged }

/-- Modelled from the spec (section 4.4), for comparison with `mergeOne`:
the merged entry's value at a key is decided by the last layer defining it,
the layers being, in override order, (1) scalar settings, (2) global
shared values, (3) the combination itself, (4) per-dimension-value
configurations in lexicographic dimension-key order. -/
def specMergeLookup (baseConfig globalConfig : Entry) (raw : Entry) (combo : Entry) (k : String) : Option Value :=
  ((sortedKeys combo).reverse.findSome? fun dimKey =>
      (perValueConfig raw combo dimKey).bind fun cfg => lookup cfg k).or
    ((lookup combo k).or ((lookup globalConfig k).or (lookup baseConfig k)))

/-! ### Lemmas about the map operations -/

theorem lookup_setKey (e : Entry) (k : String) (v : Value) (k' : String) :
    lookup (setKey e k v) k' = if k = k' then some v else lookup e k' := by
  induction e with
  | nil => by_cases h : k = k' <;> simp [setKey, lookup, h]
  | cons p rest ih =>
    by_cases hp : p.1 = k
    · by_cases h : k = k'
      · simp [setKey, hp, lookup, h]
      · have hpk : p.1 ≠ k' := by rw [hp]; exact h
        simp [setKey, hp, lookup, h, hpk]
    · have hsk : setKey (p :: rest) k v = p :: setKey rest k v := by simp [setKey, hp]
      rw [hsk]
      by_cases h : k = k'
      · subst h
        simp [lookup, hp, ih]
      · by_cases hq : p.1 = k'
        · simp [lookup, hq, h]
        · simp [lookup, hq, ih, h]

theorem lookup_eq_none_of_not_mem (m : Entry) (k : String) (h : k ∉ keysOf m) :
    lookup m k = none := by
  induction m with
  | nil => rfl
  | cons p rest ih =>
    simp only [keysOf, List.map_cons, List.mem_cons, not_or] at h
    have hp : p.1 ≠ k := fun hh => h.1 (hh.symm)
    simpa [lookup, hp] using ih (by simpa [keysOf] using h.2)

theorem mergeInto_cons (e : Entry) (p : String × Value) (m : Entry) :
    mergeInto e (p :: m) = mergeInto (setKey e p.1 p.2) m := rfl

theorem lookup_mergeInto (e m : Entry) (k : String) (hm : WFEntry m) :
    lookup (mergeInto e m) k = (lookup m k).or (lookup e k) := by
  induction m generalizing e with
  | nil => simp [mergeInto, lookup, Option.or]
  | cons p rest ih =>
    simp only [WFEntry, keysOf, List.map_cons, List.nodup_cons] at hm
    rw [mergeInto_cons, ih _ hm.2, lookup_setKey]
    by_cases hp : p.1 = k
    · have hnone : lookup rest k = none :=
        lookup_eq_none_of_not_mem _ _ (by rw [← hp]; exact hm.1)
      simp [lookup, hp, hnone, Option.or]
    · simp [lookup, hp]

theorem lookup_foldl_mergeInto (f : String → Option Entry)
    (wf : ∀ dk cfg, f dk = some cfg → WFEntry cfg) :
    ∀ (ks : List String) (e : Entry) (k : String),
    lookup (ks.foldl (fun acc dk =>
        match f dk with
        | some cfg => mergeInto acc cfg
        | none => acc) e) k
      = (ks.reverse.findSome? fun dk => (f dk).bind fun cfg => lookup cfg k).or (lookup e k)
  | [], e, k => by simp
  | dk :: ks, e, k => by
    rw [List.foldl_cons, lookup_foldl_mergeInto f wf ks _ k]
    have hstep : lookup (match f dk with
        | some cfg => mergeInto e cfg
        | none => e) k = ((f dk).bind fun cfg => lookup cfg k).or (lookup e k) := by
      cases hf : f dk with
      | none => simp [Option.or]
      | some cfg => simp [lookup_mergeInto e cfg k (wf dk cfg hf)]
    rw [hstep, List.reverse_cons, List.findSome?_append]
    have h1 : List.findSome? (fun dk => (f dk).bind fun cfg => lookup cfg k) [dk]
        = (f dk).bind fun cfg => lookup cfg k := by
      cases hgd : (f dk).bind fun cfg => lookup cfg k <;>
        simp [List.findSome?_cons, hgd]
    rw [h1, Option.or_assoc]

theorem lookup_mergeOne (baseConfig globalConfig raw combo : Entry) (k : String)
    (hb : WFEntry baseConfig) (hg : WFEntry globalConfig) (hc : WFEntry combo)
    (hpv : ∀ dk cfg, perValueConfig raw combo dk = some cfg → WFEntry cfg) :
    lookup (mergeOne baseConfig globalConfig raw combo) k
      = specMergeLookup baseConfig globalConfig raw combo k := by
  unfold mergeOne specMergeLookup
  rw [lookup_foldl_mergeInto (perValueConfig raw combo) hpv,
    lookup_mergeInto _ _ _ hc, lookup_mergeInto _ _ _ hg, lookup_mergeInto _ _ _ hb]
  simp [lookup, Option.or_assoc]

/-! ### Counting lemmas -/

theorem sum_map_const_length {α : Type} (l : List α) (c : Nat) :
    (l.map fun _ => c).sum = l.length * c := by
  induction l with
  | nil => simp
  | cons x xs ih => simp [ih, Nat.succ_mul, Nat.add_comm]

theorem length_cartesianProduct_aux (dims : List dimension) (acc : List Entry) :
    (dims.foldl
      (fun result dim => result.flatMap fun entry =>
        dim.values.map fun val => setKey entry dim.key val)
      acc).length
      = acc.length * (dims.map fun d => d.values.length).prod := by
  induction dims generalizing acc with
  | nil => simp
  | cons d dims ih =>
    rw [List.foldl_cons, ih]
    have hlen : (acc.flatMap fun entry =>
        d.values.map fun val => setKey entry d.key val).length
        = acc.length * d.values.length := by
      rw [List.length_flatMap]
      have hmap : (List.map (List.length ∘ fun entry =>
          List.map (fun val => setKey entry d.key val) d.values) acc)
          = List.replicate acc.length d.values.length := by
        simp [Function.comp_def]
      rw [hmap]
      simp [List.sum_replicate, smul_eq_mul]
    rw [hlen]
    simp [Nat.mul_assoc]

theorem length_cartesianProduct (dims : List dimension) :
    (cartesianProduct dims).length = (dims.map fun d => d.values.length).prod := by
  unfold cartesianProduct
  rw [length_cartesianProduct_aux]
  simp

/-! ### Order lemmas for the sort comparison -/

theorem entryLess_asymm (keys : List String) (a b : Entry)
    (h : entryLess keys a b = true) : entryLess keys b a = false := by
  induction keys with
  | nil => simp [entryLess] at h
  | cons k ks ih =>
    unfold entryLess at h ⊢
    by_cases hxy : valStr a k = valStr b k
    · rw [if_neg (fun hC => hC hxy)] at h
      rw [if_neg (fun hC => hC hxy.symm)]
      exact ih h
    · rw [if_pos hxy] at h
      have hlt : valStr a k < valStr b k := of_decide_eq_true h
      rw [if_pos (fun hh => hxy hh.symm)]
      exact decide_eq_false (lt_asymm hlt)

theorem entryLess_neg_trans (keys : List String) (a b c : Entry)
    (h1 : entryLess keys b a = false) (h2 : entryLess keys c b = false) :
    entryLess keys c a = false := by
  induction keys with
  | nil => simp [entryLess]
  | cons k ks ih =>
    unfold entryLess at h1 h2 ⊢
    by_cases hyx : valStr b k = valStr a k
    · by_cases hzy : valStr c k = valStr b k
      · have hzx : valStr c k = valStr a k := hzy.trans hyx
        rw [if_neg (fun hC => hC hyx)] at h1
        rw [if_neg (fun hC => hC hzy)] at h2
        rw [if_neg (fun hC => hC hzx)]
        exact ih h1 h2
      · have hzx : valStr c k ≠ valStr a k := by rw [← hyx]; exact hzy
        rw [if_pos hzy] at h2
        rw [if_pos hzx]
        rw [show valStr a k = valStr b k from hyx.symm]
        exact h2
    · by_cases hzy : valStr c k = valStr b k
      · have hzx : valStr c k ≠ valStr a k := by rw [hzy]; exact hyx
        rw [if_pos hyx] at h1
        rw [if_pos hzx, hzy]
        exact h1
      · rw [if_pos hyx] at h1
        rw [if_pos hzy] at h2
        have hnlt1 : ¬ valStr b k < valStr a k := of_decide_eq_false h1
        have hnlt2 : ¬ valStr c k < valStr b k := of_decide_eq_false h2
        have hxy : valStr a k < valStr b k :=
          lt_of_le_of_ne (not_lt.mp hnlt1) fun hh => hyx hh.symm
        have hyz : valStr b k < valStr c k :=
          lt_of_le_of_ne (not_lt.mp hnlt2) fun hh => hzy hh.symm
        have hxz : valStr a k < valStr c k := hxy.trans hyz
        have hzx : valStr c k ≠ valStr a k := (ne_of_lt hxz).symm
        rw [if_pos hzx]
        exact decide_eq_false (lt_asymm hxz)

theorem entryLE_trans (keys : List String) (a b c : Entry)
    (h1 : entryLE keys a b = true) (h2 : entryLE keys b c = true) :
    entryLE keys a c = true := by
  unfold entryLE at h1 h2 ⊢
  simp only [Bool.not_eq_true'] at h1 h2 ⊢
  exact entryLess_neg_trans keys a b c h1 h2

theorem entryLE_total (keys : List String) (a b : Entry) :
    entryLE keys a b || entryLE keys b a = true := by
  unfold entryLE
  by_cases h : entryLess keys a b = true
  · have := entryLess_asymm keys a b h
    simp [this]
  · simp only [Bool.not_eq_true] at h
    simp [h]

/-! ### Per-stage membership lemmas -/

theorem mem_of_mem_applyExclude {e : Entry} {entries patterns : List Entry}
    (h : e ∈ applyExclude entries patterns) : e ∈ entries :=
  (List.mem_filter.mp h).1

theorem mem_applyFilter_iff {e : Entry} {entries : List Entry} {key : String}
    {allowed : List String} :
    e ∈ applyFilter entries key allowed ↔
      e ∈ entries ∧ ∃ v, lookup e key = some v ∧ allowed.contains (Value.toStr v) = true := by
  unfold applyFilter
  rw [List.mem_filter]
  constructor
  · rintro ⟨h1, h2⟩
    refine ⟨h1, ?_⟩
    cases hv : lookup e key with
    | none => rw [hv] at h2; simp at h2
    | some v => rw [hv] at h2; exact ⟨v, rfl, h2⟩
  · rintro ⟨h1, v, hv, hc⟩
    exact ⟨h1, by rw [hv]; exact hc⟩

theorem lookup_addDirectoryOne_ne (optsCfg : OptionsConfig) (e : Entry) (k : String)
    (hk : k ≠ "directory") :
    lookup (addDirectoryOne optsCfg e) k = lookup e k := by
  unfold addDirectoryOne
  cases lookup e optsCfg.DimensionKey with
  | none => rfl
  | some v =>
    have hdk : "directory" ≠ k := fun hh => hk hh.symm
    by_cases hb : optsCfg.BaseDir ≠ "" <;>
      simp [hb, lookup_setKey, hdk]

theorem lookup_addDirectoryOne_dir (optsCfg : OptionsConfig) (e : Entry) (v : Value)
    (hv : lookup e optsCfg.DimensionKey = some v) :
    lookup (addDirectoryOne optsCfg e) "directory"
      = some (.vstr (if optsCfg.BaseDir ≠ "" then
          optsCfg.BaseDir ++ "/" ++ Value.toStr v else Value.toStr v)) := by
  unfold addDirectoryOne
  rw [hv]
  by_cases hb : optsCfg.BaseDir ≠ "" <;> simp [hb, lookup_setKey]

theorem mem_sortEntries_iff {e : Entry} {entries : List Entry} {keys : List String} :
    e ∈ sortEntries entries keys ↔ e ∈ entries := by
  unfold sortEntries
  exact List.mem_mergeSort

/-! ### Claim theorems -/

/-- C9: `Expand` never returns a non-nil error: for every dimensions-only
config, options config and options, the expansion stage succeeds with an
entry list. -/
theorem claim_C9 (raw : Entry) (optsCfg : OptionsConfig) (opts : Options) :
    ∃ entries, Expand raw optsCfg opts = Except.ok entries :=
  ⟨expandEntries raw optsCfg opts, rfl⟩

/-- C6: excluding with a pattern list containing the empty pattern removes
every entry; excluding with patterns matching no entry returns the list
unchanged; an entry matches a pattern exactly when it contains every
pattern key with a stringified-equal value (a missing key means no match),
and an entry is removed exactly when it matches some pattern. -/
theorem claim_C6 (entries patterns : List Entry) :
    (([] : Entry) ∈ patterns → applyExclude entries patterns = [])
    ∧ ((∀ e ∈ entries, ∀ p ∈ patterns, matchesPattern e p = false) →
        applyExclude entries patterns = entries)
    ∧ (∀ e p : Entry, matchesPattern e p = true ↔
        ∀ kv ∈ p, ∃ ev, lookup e kv.1 = some ev ∧ Value.toStr ev = Value.toStr kv.2)
    ∧ (∀ e : Entry, e ∈ applyExclude entries patterns ↔
        e ∈ entries ∧ ∀ p ∈ patterns, matchesPattern e p = false) := by
  refine ⟨?_, ?_, ?_, ?_⟩
  · intro hmem
    unfold applyExclude
    rw [List.filter_eq_nil_iff]
    intro e he
    have hany : (patterns.any fun pattern => matchesPattern e pattern) = true :=
      List.any_eq_true.mpr ⟨[], hmem, rfl⟩
    simp [hany]
  · intro hnone
    unfold applyExclude
    apply List.filter_eq_self.mpr
    intro e he
    have hany : (patterns.any fun pattern => matchesPattern e pattern) = false := by
      rw [List.any_eq_false]
      intro p hp
      simp [hnone e he p hp]
    simp [hany]
  · intro e p
    unfold matchesPattern
    rw [List.all_eq_true]
    constructor
    · intro h kv hkv
      have hh := h kv hkv
      cases hv : lookup e kv.1 with
      | none => rw [hv] at hh; simp at hh
      | some ev =>
        rw [hv] at hh
        exact ⟨ev, rfl, by simpa using hh⟩
    · intro h kv hkv
      obtain ⟨ev, hev, heq⟩ := h kv hkv
      rw [hev]
      simpa using heq
  · intro e
    unfold applyExclude
    rw [List.mem_filter]
    constructor
    · rintro ⟨h1, h2⟩
      refine ⟨h1, ?_⟩
      intro p hp
      simp only [Bool.not_eq_true'] at h2
      rw [List.any_eq_false] at h2
      simpa using h2 p hp
    · rintro ⟨h1, h2⟩
      refine ⟨h1, ?_⟩
      simp only [Bool.not_eq_true']
      rw [List.any_eq_false]
      intro p hp
      simp [h2 p hp]

/-- Witness for C6 at concrete inputs: the empty pattern clears the list,
and a non-matching pattern leaves it unchanged. -/
theorem claim_C6_witness :
    applyExclude [[("service", Value.vstr "a")]] [([] : Entry)] = []
    ∧ applyExclude [[("service", Value.vstr "a")]] [[("service", Value.vstr "b")]]
        = [[("service", Value.vstr "a")]] := by
  constructor
  · exact (claim_C6 _ _).1 (by simp)
  · apply (claim_C6 _ _).2.1
    intro e he p hp
    simp only [List.mem_singleton] at he hp
    subst he
    subst hp
    simp [matchesPattern, lookup, Value.toStr]

/-- C7 counterexample: with a duplicated known value (as an array dimension
permits), a changed value is returned once per occurrence, so the result
does not contain each value at most once. -/
theorem claim_C7_counterexample :
    FilterChanged ["a/x.tf"] "" ["a", "a"] = ["a", "a"]
    ∧ ¬ (FilterChanged ["a/x.tf"] "" ["a", "a"]).Nodup := by
  constructor
  · decide
  · decide

/-- C7 (amended): FilterChanged returns exactly those known values for
which some changed file path, after trimming, starts with the value's
directory prefix; the result is an order-preserving sublist of the known
values, and contains each value at most once whenever the known-values
list itself is duplicate-free. -/
theorem claim_C7 (changedFiles : List String) (baseDir : String) (knownValues : List String) :
    (∀ v, v ∈ FilterChanged changedFiles baseDir knownValues ↔
        v ∈ knownValues ∧ (changedFiles.any fun f =>
          hasPrefixGo (trimSpace f)
            (if baseDir ≠ "" then baseDir ++ "/" ++ v ++ "/" else v ++ "/")) = true)
    ∧ (FilterChanged changedFiles baseDir knownValues).Sublist knownValues
    ∧ (knownValues.Nodup → (FilterChanged changedFiles baseDir knownValues).Nodup) := by
  refine ⟨?_, List.filter_sublist _, fun h => h.filter _⟩
  intro v
  unfold FilterChanged
  rw [List.mem_filter]

/-- Witness for C7 at concrete inputs, discharging the duplicate-freedom
hypothesis. -/
theorem claim_C7_witness :
    ("api" ∈ FilterChanged ["deploy/api/x.tf"] "deploy" ["api", "web"]
      ↔ "api" ∈ ["api", "web"] ∧ ((["deploy/api/x.tf"].any fun f =>
          hasPrefixGo (trimSpace f)
            (if "deploy" ≠ "" then "deploy" ++ "/" ++ "api" ++ "/" else "api" ++ "/")) = true))
    ∧ (FilterChanged ["deploy/api/x.tf"] "deploy" ["api", "web"]).Nodup := by
  refine ⟨(claim_C7 _ _ _).1 "api", (claim_C7 _ _ _).2.2 (by decide)⟩

/-- C10: the directory synthesizer changes only the "directory" field: an
entry holding the primary dimension key gets "directory" set (overwriting
any prior value) to the base-directory path of the stringified value, with
every other field preserved; an entry lacking the key is left unchanged;
include entries are appended verbatim beforehand. -/
theorem claim_C10 (entries includes : List Entry) (optsCfg : OptionsConfig) :
    (addDirectoryField entries optsCfg = entries.map (addDirectoryOne optsCfg))
    ∧ (∀ e : Entry, lookup e optsCfg.DimensionKey = none → addDirectoryOne optsCfg e = e)
    ∧ (∀ (e : Entry) (v : Value), lookup e optsCfg.DimensionKey = some v →
        lookup (addDirectoryOne optsCfg e) "directory"
          = some (.vstr (if optsCfg.BaseDir ≠ "" then
              optsCfg.BaseDir ++ "/" ++ Value.toStr v else Value.toStr v))
        ∧ ∀ k, k ≠ "directory" → lookup (addDirectoryOne optsCfg e) k = lookup e k)
    ∧ applyInclude entries includes = entries ++ includes := by
  refine ⟨rfl, ?_, ?_, rfl⟩
  · intro e he
    unfold addDirectoryOne
    rw [he]
  · intro e v hv
    exact ⟨lookup_addDirectoryOne_dir _ _ _ hv,
      fun k hk => lookup_addDirectoryOne_ne _ _ _ hk⟩

/-- Witness for C10 at concrete inputs: an existing "directory" value is
overwritten, other fields survive, and a keyless entry is untouched. -/
theorem claim_C10_witness :
    lookup (addDirectoryOne ⟨"service", "deploy", none, [], [], []⟩
        [("service", Value.vstr "api"), ("directory", Value.vstr "old")]) "directory"
      = some (Value.vstr "deploy/api")
    ∧ lookup (addDirectoryOne ⟨"service", "deploy", none, [], [], []⟩
        [("service", Value.vstr "api"), ("directory", Value.vstr "old")]) "service"
      = some (Value.vstr "api")
    ∧ addDirectoryOne ⟨"service", "", none, [], [], []⟩ [("x", Value.vnull)]
      = [("x", Value.vnull)] := by
  refine ⟨?_, ?_, ?_⟩
  · have h := ((claim_C10 [] [] ⟨"service", "deploy", none, [], [], []⟩).2.2.1
      [("service", Value.vstr "api"), ("directory", Value.vstr "old")] (Value.vstr "api") rfl).1
    simpa [Value.toStr] using h
  · have h := ((claim_C10 [] [] ⟨"service", "deploy", none, [], [], []⟩).2.2.1
      [("service", Value.vstr "api"), ("directory", Value.vstr "old")] (Value.vstr "api") rfl).2
      "service" (by decide)
    rw [h]
    rfl
  · exact (claim_C10 [] [] _).2.1 _ rfl

/-- C3: with empty exclude/include lists and empty filters, the number of
expanded entries is the product of the classified dimension sizes; exactly
1 when there are no dimensions, and 0 when any dimension has no values. -/
theorem claim_C3 (raw : Entry) (optsCfg : OptionsConfig) (opts : Options)
    (h1 : optsCfg.Exclude = []) (h2 : optsCfg.Include = [])
    (h3 : opts.FilterValues = []) (h4 : opts.EnvironmentFilter = [])
    (h5 : opts.InputExclude = []) (h6 : opts.InputInclude = []) :
    (expandEntries raw optsCfg opts).length
        = ((extractDimensions raw).map fun d => d.values.length).prod
    ∧ (extractDimensions raw = [] → (expandEntries raw optsCfg opts).length = 1)
    ∧ (∀ d ∈ extractDimensions raw, d.values = [] →
        (expandEntries raw optsCfg opts).length = 0) := by
  have hmain : (expandEntries raw optsCfg opts).length
      = ((extractDimensions raw).map fun d => d.values.length).prod := by
    unfold expandEntries stageConfigExclude stageConfigInclude stageValueFilter
      stageEnvFilter stageInputExclude stageInputInclude
    rw [h1, h2, h3, h4, h5, h6]
    simp only [List.length_nil, lt_self_iff_false, if_false, false_and, ite_false]
    unfold baseEntries
    by_cases hd : (extractDimensions raw).length = 0
    · rw [if_pos hd]
      have hnil : extractDimensions raw = [] := List.length_eq_zero.mp hd
      simp [hnil, sortEntries, addDirectoryField]
    · rw [if_neg hd]
      simp [sortEntries, addDirectoryField, mergeConfig, length_cartesianProduct]
  refine ⟨hmain, ?_, ?_⟩
  · intro h
    rw [hmain, h]
    rfl
  · intro d hd hv
    rw [hmain]
    apply List.prod_eq_zero
    exact List.mem_map.mpr ⟨d, hd, by rw [hv]; rfl⟩

/-- Witness for C3 at concrete inputs: two array values give two entries,
no dimensions give one entry, an empty array dimension gives none. -/
theorem claim_C3_witness :
    (expandEntries [("service", Value.varr [Value.vstr "a", Value.vstr "b"])] {} {}).length = 2
    ∧ (expandEntries [("app_name", Value.vstr "myapp")] {} {}).length = 1
    ∧ (expandEntries [("environment", Value.varr [Value.vstr "dev"]),
        ("service", Value.varr [])] {} {}).length = 0 := by
  refine ⟨?_, ?_, ?_⟩
  · have h := (claim_C3 [("service", Value.varr [Value.vstr "a", Value.vstr "b"])]
      {} {} rfl rfl rfl rfl rfl rfl).1
    rw [h]
    simp [extractDimensions, sortedKeys, lookup]
  · have h := (claim_C3 [("app_name", Value.vstr "myapp")] {} {} rfl rfl rfl rfl rfl rfl).2.1
    apply h
    simp [extractDimensions, sortedKeys, lookup]
  · have h := (claim_C3 [("environment", Value.varr [Value.vstr "dev"]),
      ("service", Value.varr [])] {} {} rfl rfl rfl rfl rfl rfl).2.2
    apply h ⟨"service", []⟩ ?_ rfl
    have hsk : sortedKeys [("environment", Value.varr [Value.vstr "dev"]),
        ("service", Value.varr [])] = ["environment", "service"] := by
      unfold sortedKeys
      simp only [List.map_cons, List.map_nil]
      rw [List.mergeSort_of_sorted (by simp; decide)]
    simp [extractDimensions, hsk, lookup]

/-- C5: the final sort is a stable multi-key sort over the configured key
list: the result is a permutation, pairwise ordered by the lexicographic
stringified-value comparison with ties cascading to later keys, entries
missing a sort field compare as the undefined-value stringification, and
entries tying on every key keep their pre-sort relative order. -/
theorem claim_C5 (entries : List Entry) (keys : List String) :
    (sortEntries entries keys).Perm entries
    ∧ (sortEntries entries keys).Pairwise (fun a b => entryLE keys a b = true)
    ∧ (∀ a b : Entry, [a, b].Sublist entries → entryLE keys a b = true →
        [a, b].Sublist (sortEntries entries keys))
    ∧ (∀ (e : Entry) (k : String), lookup e k = none → valStr e k = Value.toStr .vnull)
    ∧ (∀ (a b : Entry) (k : String) (ks : List String),
        entryLess (k :: ks) a b
          = if valStr a k ≠ valStr b k then decide (valStr a k < valStr b k)
            else entryLess ks a b) := by
  have htrans : ∀ a b c : Entry, (!entryLess keys b a) → (!entryLess keys c b) →
      (!entryLess keys c a) := by
    intro a b c hab hbc
    have h1 : entryLE keys a b = true := by simpa [entryLE] using hab
    have h2 : entryLE keys b c = true := by simpa [entryLE] using hbc
    simpa [entryLE] using entryLE_trans keys a b c h1 h2
  have htotal : ∀ a b : Entry, (!entryLess keys b a) || (!entryLess keys a b) := by
    intro a b
    simpa [entryLE] using entryLE_total keys a b
  refine ⟨?_, ?_, ?_, ?_, ?_⟩
  · exact List.mergeSort_perm entries _
  · have h := List.sorted_mergeSort htrans htotal entries
    unfold sortEntries
    refine h.imp ?_
    intro a b hab
    simpa [entryLE] using hab
  · intro a b hsub hle
    unfold sortEntries
    apply List.pair_sublist_mergeSort htrans htotal ?_ hsub
    simpa [entryLE] using hle
  · intro e k h
    unfold valStr
    rw [h]
    rfl
  · intro a b k ks
    rfl

/-- Witness for C5 at concrete inputs: two entries tying on the sort key
stay in their original order, and a missing sort field compares as the
undefined-value string. -/
theorem claim_C5_witness :
    [[("environment", Value.vstr "dev"), ("id", Value.vint 1)],
     [("environment", Value.vstr "dev"), ("id", Value.vint 2)]].Sublist
      (sortEntries [[("environment", Value.vstr "dev"), ("id", Value.vint 1)],
        [("environment", Value.vstr "dev"), ("id", Value.vint 2)]] ["environment"])
    ∧ valStr [] "environment" = Value.toStr .vnull := by
  constructor
  · apply (claim_C5 _ ["environment"]).2.2.1 _ _ (List.Sublist.refl _)
    simp [entryLE, entryLess, valStr, lookup]
  · exact (claim_C5 [] []).2.2.2.1 [] "environment" rfl

/-- C2: a merged entry is decided by the override order scalar settings,
then global shared values, then the combination, then per-dimension-value
configurations in lexicographic dimension-key order (later layers win);
in particular, with dimensions environment and service both defining a key
x through per-value configuration, the entry's x is the service value's. -/
theorem claim_C2 (entries : List Entry) (baseConfig globalConfig raw combo : Entry)
    (hb : WFEntry baseConfig) (hg : WFEntry globalConfig) (hc : WFEntry combo)
    (hpv : ∀ dk cfg, perValueConfig raw combo dk = some cfg → WFEntry cfg) :
    (mergeConfig entries baseConfig globalConfig raw
        = entries.map (mergeOne baseConfig globalConfig raw))
    ∧ (∀ k, lookup (mergeOne baseConfig globalConfig raw combo) k
        = specMergeLookup baseConfig globalConfig raw combo k)
    ∧ (∀ cfgS b, sortedKeys combo = ["environment", "service"] →
        perValueConfig raw combo "service" = some cfgS →
        lookup cfgS "x" = some b →
        lookup (mergeOne baseConfig globalConfig raw combo) "x" = some b) := by
  refine ⟨rfl, ?_, ?_⟩
  · intro k
    exact lookup_mergeOne baseConfig globalConfig raw combo k hb hg hc hpv
  · intro cfgS b hsk hpc hx
    rw [lookup_mergeOne baseConfig globalConfig raw combo "x" hb hg hc hpv]
    unfold specMergeLookup
    rw [hsk]
    have hrev : (["environment", "service"] : List String).reverse
        = ["service", "environment"] := rfl
    rw [hrev]
    simp [List.findSome?_cons, hpc, hx]

/-- Witness for C2 at a concrete config where the environment and service
dimensions both define x through per-value configuration: the service
value wins. -/
theorem claim_C2_witness :
    lookup (mergeOne [] []
        [("environment", Value.vobj [("dev", Value.vobj [("x", Value.vstr "envX")])]),
         ("service", Value.vobj [("api", Value.vobj [("x", Value.vstr "serviceX")])])]
        [("environment", Value.vstr "dev"), ("service", Value.vstr "api")]) "x"
      = some (Value.vstr "serviceX") := by
  have hpv : ∀ dk cfg, perValueConfig
      [("environment", Value.vobj [("dev", Value.vobj [("x", Value.vstr "envX")])]),
       ("service", Value.vobj [("api", Value.vobj [("x", Value.vstr "serviceX")])])]
      [("environment", Value.vstr "dev"), ("service", Value.vstr "api")] dk = some cfg →
      WFEntry cfg := by
    intro dk cfg h
    unfold perValueConfig at h
    by_cases h1 : dk = "environment"
    · subst h1
      simp only [lookup] at h
      simp [Value.toStr, lookup] at h
      subst h
      decide
    · by_cases h2 : dk = "service"
      · subst h2
        simp only [lookup] at h
        simp [Value.toStr, lookup, h1] at h
        subst h
        decide
      · have hne1 : "environment" ≠ dk := fun hh => h1 hh.symm
        have hne2 : "service" ≠ dk := fun hh => h2 hh.symm
        have hl : lookup
            [("environment", Value.vobj [("dev", Value.vobj [("x", Value.vstr "envX")])]),
             ("service", Value.vobj [("api", Value.vobj [("x", Value.vstr "serviceX")])])] dk
            = none := by
          simp [lookup, hne1, hne2]
        rw [hl] at h
        cases h
  apply (claim_C2 [] [] []
    [("environment", Value.vobj [("dev", Value.vobj [("x", Value.vstr "envX")])]),
     ("service", Value.vobj [("api", Value.vobj [("x", Value.vstr "serviceX")])])]
    [("environment", Value.vstr "dev"), ("service", Value.vstr "api")]
    (by decide) (by decide) (by decide) hpv).2.2 [("x", Value.vstr "serviceX")]
    (Value.vstr "serviceX") ?_ ?_ rfl
  · unfold sortedKeys
    simp only [List.map_cons, List.map_nil]
    rw [List.mergeSort_of_sorted (by simp; decide)]
  · simp [perValueConfig, lookup, Value.toStr]

/-- C8: auto-detection in ResolveTarget fires only for a single filter
value naming an existing dimension that is not a value of the current
primary dimension; then the old primary dimension is deleted, the named
dimension becomes primary and filter key, and the filter values are
cleared; in every other case the auto-detect path changes nothing. -/
theorem claim_C8 (raw : Entry) (optsCfg : OptionsConfig) (opts : Options) (ov : String)
    (hexp : ¬ (ov ≠ "" ∧ ov ≠ optsCfg.DimensionKey ∧ isDimension (lookup raw ov) = true)) :
    (∀ t, opts.FilterValues = [t] → isDimension (lookup raw t) = true →
      t ∉ ExtractDimensionValues raw optsCfg.DimensionKey →
      ResolveTarget raw optsCfg opts ov
        = ⟨eraseKey raw optsCfg.DimensionKey,
           { optsCfg with DimensionKey := t },
           { opts with FilterKey := t, FilterValues := [] }⟩)
    ∧ (∀ t, opts.FilterValues = [t] →
        (isDimension (lookup raw t) = false
          ∨ t ∈ ExtractDimensionValues raw optsCfg.DimensionKey) →
        ResolveTarget raw optsCfg opts ov = ⟨raw, optsCfg, opts⟩)
    ∧ ((∀ t, opts.FilterValues ≠ [t]) →
        ResolveTarget raw optsCfg opts ov = ⟨raw, optsCfg, opts⟩) := by
  refine ⟨?_, ?_, ?_⟩
  · intro t ht hdim hnot
    have hcont : (ExtractDimensionValues raw optsCfg.DimensionKey).contains t = false := by
      simpa using hnot
    unfold ResolveTarget
    rw [if_neg (by simpa using hexp), ht]
    simp [hdim, hcont, hnot]
  · intro t ht hcase
    unfold ResolveTarget
    rw [if_neg (by simpa using hexp), ht]
    rcases hcase with hdim | hmem
    · simp [hdim]
    · have hcont : (ExtractDimensionValues raw optsCfg.DimensionKey).contains t = true := by
        simpa using hmem
      by_cases hdim : isDimension (lookup raw t) = true
      · simp [hdim, hcont, hmem]
      · simp only [Bool.not_eq_true] at hdim
        simp [hdim]
  · intro hne
    unfold ResolveTarget
    rw [if_neg (by simpa using hexp)]
    cases hfv : opts.FilterValues with
    | nil => rfl
    | cons t rest =>
      cases rest with
      | nil => exact absurd hfv (hne t)
      | cons t2 rest2 => rfl

/-- Witness for C8 at a concrete config: a single filter value naming the
env dimension swaps the primary dimension and clears the filter. -/
theorem claim_C8_witness :
    ResolveTarget
        [("service", Value.varr [Value.vstr "a"]), ("env", Value.vobj [("dev", Value.vnull)])]
        {} { FilterValues := ["env"] } ""
      = ⟨[("env", Value.vobj [("dev", Value.vnull)])],
         { DimensionKey := "env" },
         { FilterKey := "env", FilterValues := [] }⟩ := by
  have h := (claim_C8
    [("service", Value.varr [Value.vstr "a"]), ("env", Value.vobj [("dev", Value.vnull)])]
    {} { FilterValues := ["env"] } "" (by simp)).1 "env" rfl rfl
    (by simp [ExtractDimensionValues, lookup, Value.toStr])
  rw [h]
  rfl

/-- Every entry surviving the value-filter stage of `expandEntries` (with
no caller-level include entries appended afterwards, and a filter key that
is set and distinct from the synthesized "directory" field) carries a
filter-key value allowed by the filter list. -/
theorem expandEntries_filterKey_mem (raw : Entry) (optsCfg : OptionsConfig) (opts : Options)
    (hfv : opts.FilterValues ≠ []) (hfk : opts.FilterKey ≠ "")
    (hdir : opts.FilterKey ≠ "directory") (hinc : opts.InputInclude = [])
    (e : Entry) (he : e ∈ expandEntries raw optsCfg opts)
    (v : Value) (hv : lookup e opts.FilterKey = some v) :
    opts.FilterValues.contains (Value.toStr v) = true := by
  unfold expandEntries at he
  rw [mem_sortEntries_iff] at he
  unfold addDirectoryField at he
  obtain ⟨e0, he0, rfl⟩ := List.mem_map.mp he
  rw [lookup_addDirectoryOne_ne optsCfg e0 opts.FilterKey hdir] at hv
  unfold stageInputInclude at he0
  rw [hinc] at he0
  simp only [List.length_nil, lt_self_iff_false, if_false] at he0
  have he1 : e0 ∈ stageEnvFilter opts (stageValueFilter opts (stageConfigInclude optsCfg
      (stageConfigExclude optsCfg (baseEntries raw optsCfg)))) := by
    unfold stageInputExclude at he0
    split at he0
    · exact mem_of_mem_applyExclude he0
    · exact he0
  have he2 : e0 ∈ stageValueFilter opts (stageConfigInclude optsCfg
      (stageConfigExclude optsCfg (baseEntries raw optsCfg))) := by
    unfold stageEnvFilter at he1
    split at he1
    · exact (mem_applyFilter_iff.mp he1).1
    · exact he1
  unfold stageValueFilter at he2
  rw [if_pos ⟨List.length_pos.mpr hfv, hfk⟩] at he2
  obtain ⟨-, v', hv', hc⟩ := mem_applyFilter_iff.mp he2
  rw [hv] at hv'
  cases hv'
  exact hc

/-- C4 counterexample: change detection yields changed value a while the
prior filter allows only b; the intersection is empty, so the code clears
the filter list, the value filter is skipped, and the final matrix still
contains an entry carrying the primary-dimension key — the claim says it
would contain none. -/
theorem claim_C4_counterexample :
    runMatrixAfterChanges [("service", Value.varr [Value.vstr "a"])]
        {} { FilterKey := "service", FilterValues := ["b"] } ["a"]
      = [[("service", Value.vstr "a"), ("directory", Value.vstr "a")]]
    ∧ ¬ (∀ e ∈ runMatrixAfterChanges [("service", Value.varr [Value.vstr "a"])]
        {} { FilterKey := "service", FilterValues := ["b"] } ["a"],
        lookup e "service" = none) := by
  have hres : runMatrixAfterChanges [("service", Value.varr [Value.vstr "a"])]
      {} { FilterKey := "service", FilterValues := ["b"] } ["a"]
      = [[("service", Value.vstr "a"), ("directory", Value.vstr "a")]] := by
    simp [runMatrixAfterChanges, mergeChangedFilter, expandEntries, baseEntries,
      extractDimensions, sortedKeys, extractBaseConfig, cartesianProduct, mergeConfig,
      mergeOne, mergeInto, setKey, perValueConfig, lookup, stageConfigExclude,
      stageConfigInclude, stageValueFilter, stageEnvFilter, stageInputExclude,
      stageInputInclude, addDirectoryField, addDirectoryOne, sortEntries, Value.toStr]
  refine ⟨hres, ?_⟩
  intro hall
  have := hall [("service", Value.vstr "a"), ("directory", Value.vstr "a")]
    (by rw [hres]; exact List.mem_singleton.mpr rfl)
  simp [lookup] at this

/-- C4 (amended): when change detection yields a nonempty changed set
while a prior value filter is active and their intersection is nonempty
(with the filter key set, distinct from "directory", and no caller-level
include entries), every entry of the final matrix carries a
primary-dimension value allowed by both the changed set and the prior
filter.  When the intersection is empty, the installed filter list is
empty, the value filter is skipped, and entries carrying the
primary-dimension key remain. -/
theorem claim_C4 (dims : Entry) (optsCfg : OptionsConfig) (opts : Options)
    (changedValues : List String)
    (hchanged : changedValues ≠ [])
    (hprior : opts.FilterValues ≠ [])
    (hmerge : mergeChangedFilter changedValues opts.FilterValues ≠ [])
    (hkey : opts.FilterKey ≠ "")
    (hkeydir : opts.FilterKey ≠ "directory")
    (hinc : opts.InputInclude = []) :
    ∀ e ∈ runMatrixAfterChanges dims optsCfg opts changedValues,
      ∀ v, lookup e opts.FilterKey = some v →
        Value.toStr v ∈ changedValues ∧ Value.toStr v ∈ opts.FilterValues := by
  intro e he v hv
  have hlen : ¬ (changedValues.length = 0) := fun h0 =>
    hchanged (List.length_eq_zero.mp h0)
  unfold runMatrixAfterChanges at he
  rw [if_neg hlen] at he
  have hcont := expandEntries_filterKey_mem dims optsCfg
    { opts with FilterValues := mergeChangedFilter changedValues opts.FilterValues }
    hmerge hkey hkeydir hinc e he v hv
  have hmem : Value.toStr v ∈ mergeChangedFilter changedValues opts.FilterValues := by
    simpa using hcont
  unfold mergeChangedFilter at hmem
  rw [if_pos (List.length_pos.mpr hprior)] at hmem
  have := List.mem_filter.mp hmem
  exact ⟨this.1, by simpa using this.2⟩

/-- Witness for C4 (amended) at a concrete config with a nonempty
intersection: the surviving entry's value b is allowed by both the changed
set and the prior filter. -/
theorem claim_C4_witness :
    Value.toStr (Value.vstr "b") ∈ ["a", "b"] ∧ Value.toStr (Value.vstr "b") ∈ ["b"] := by
  have hmem : [("service", Value.vstr "b"), ("directory", Value.vstr "b")]
      ∈ runMatrixAfterChanges [("service", Value.varr [Value.vstr "a", Value.vstr "b"])]
        {} { FilterKey := "service", FilterValues := ["b"] } ["a", "b"] := by
    have hres : runMatrixAfterChanges [("service", Value.varr [Value.vstr "a", Value.vstr "b"])]
        {} { FilterKey := "service", FilterValues := ["b"] } ["a", "b"]
        = [[("service", Value.vstr "b"), ("directory", Value.vstr "b")]] := by
      simp [runMatrixAfterChanges, mergeChangedFilter, expandEntries, baseEntries,
        extractDimensions, sortedKeys, extractBaseConfig, cartesianProduct, mergeConfig,
        mergeOne, mergeInto, setKey, perValueConfig, lookup, stageConfigExclude,
        stageConfigInclude, stageValueFilter, stageEnvFilter, stageInputExclude,
        stageInputInclude, addDirectoryField, addDirectoryOne, sortEntries, applyFilter,
        Value.toStr]
    rw [hres]
    exact List.mem_singleton.mpr rfl
  exact claim_C4 [("service", Value.varr [Value.vstr "a", Value.vstr "b"])]
    {} { FilterKey := "service", FilterValues := ["b"] } ["a", "b"]
    (by decide) (by decide) (by decide) (by decide) (by decide) rfl
    [("service", Value.vstr "b"), ("directory", Value.vstr "b")] hmem
    (Value.vstr "b") rfl

/-- C1: at the failing input — a zero-dimension config carrying a global
shared value — the code returns the single entry with only the scalar
setting: the GlobalSettings shared value is absent, although the parsed
options do carry it. -/
theorem claim_C1 :
    (ParseOptions [("app_name", Value.vstr "myapp"),
        ("global", Value.vobj [("shared", Value.vstr "x")])]).1.GlobalConfig
      = [("shared", Value.vstr "x")]
    ∧ (ParseOptions [("app_name", Value.vstr "myapp"),
        ("global", Value.vobj [("shared", Value.vstr "x")])]).2
      = [("app_name", Value.vstr "myapp")]
    ∧ expandEntries [("app_name", Value.vstr "myapp")]
        (ParseOptions [("app_name", Value.vstr "myapp"),
          ("global", Value.vobj [("shared", Value.vstr "x")])]).1 {}
      = [[("app_name", Value.vstr "myapp")]]
    ∧ lookup [("app_name", Value.vstr "myapp")] "shared" = none := by
  refine ⟨rfl, rfl, ?_, rfl⟩
  have hopts : (ParseOptions [("app_name", Value.vstr "myapp"),
      ("global", Value.vobj [("shared", Value.vstr "x")])]).1
      = ⟨"service", "", none, [("shared", Value.vstr "x")], [], []⟩ := rfl
  rw [hopts]
  simp [expandEntries, baseEntries, extractDimensions, sortedKeys, lookup,
    stageConfigExclude, stageConfigInclude, stageValueFilter, stageEnvFilter,
    stageInputExclude, stageInputInclude, addDirectoryField, addDirectoryOne,
    sortEntries, mergeInto, setKey]

end ActionConfig
